import Mathlib

/-!
Shallow embedding of `simplestaticvec` (src/src/lib.rs): a fixed-capacity
vector `StaticVec<T, N>` backed by an array of `MaybeUninit<T>` slots
plus a logical length, and two future-racing combinators `SelectVec` and
`SelectVecAndFut` built on top of it.

Modelling choices:
- A `MaybeUninit<T>` slot is an `Option T`: `some x` is an initialized
  slot holding `x`, `none` is an uninitialized slot.
- The storage array `[MaybeUninit<T>; N]` is a `List (Option T)` whose
  length is `N` (stated as a hypothesis `v.data.length = N` where needed).
- Mutating Rust methods on `&mut self` returning `Result<(), E>` become
  functions returning the new store paired with `Except E Unit`; on an
  early `return Err(..)` the store component is whatever the partial
  mutation left behind, exactly as for the Rust `&mut self`.
- A future, for one poll round, is modelled by a per-round outcome
  function `p : T -> Option A` (`some a` = `Poll::Ready(a)`,
  `none` = `Poll::Pending`).
- `remove` panics (assertion failure) on an out-of-range index; the model
  returns `Option` with `none` for the panic.
-/

inductive StaticVecError where
  | CapacityExceeded
deriving Repr, DecidableEq

structure StaticVec (T : Type) (N : Nat) where
  len : Nat
  data : List (Option T)
deriving Repr, DecidableEq

/-- `nth d j` — the value of slot `j` (indexing into the storage array);
`none` beyond the end of the list, matching an uninitialized slot. -/
def nth {T : Type} : List (Option T) → Nat → Option T
  | [], _ => none
  | x :: _, 0 => x
  | _ :: xs, n + 1 => nth xs n

namespace StaticVec

variable {T : Type} {N : Nat}

/-- `StaticVec::new(len)`: fails when `len > N`, otherwise an all-uninitialized
array with logical length `len`. -/
def new (len : Nat) : Except StaticVecError (StaticVec T N) :=
  if len > N then .error .CapacityExceeded
  else .ok { len := len, data := List.replicate N none }

/-- `StaticVec::is_empty`. -/
def is_empty (v : StaticVec T N) : Bool :=
  v.len == 0

/-- `StaticVec::as_slice`: the view over slots `[0, len)`
(slot values kept as `Option T`: `none` marks a slot exposed unwritten). -/
def as_slice (v : StaticVec T N) : List (Option T) :=
  v.data.take v.len

/-- `StaticVec::resize` (private): bounds check, then set `len`. -/
def resize (v : StaticVec T N) (new_len : Nat) :
    StaticVec T N × Except StaticVecError Unit :=
  if new_len > N then (v, .error .CapacityExceeded)
  else ({ v with len := new_len }, .ok ())

/-- `StaticVec::push`: `resize(old_len + 1)?`, then write the new slot. -/
def push (v : StaticVec T N) (item : T) : StaticVec T N × Except StaticVecError Unit :=
  let old_len := v.len
  match resize v (old_len + 1) with
  | (v', .error e) => (v', .error e)
  | (v', .ok _) => ({ v' with data := v'.data.set old_len (some item) }, .ok ())

/-- The effect of `copy_from_slice` into slots `s, s+1, ...`:
write the items of `xs` consecutively starting at slot `s`. -/
def writeAt : List (Option T) → Nat → List T → List (Option T)
  | d, _, [] => d
  | d, s, x :: xs => writeAt (d.set s (some x)) (s + 1) xs

/-- `StaticVec::try_extend_from_slice`: `resize(old_len + other.len())?`,
then copy `other` into slots `[old_len, old_len + other.len())`. -/
def try_extend_from_slice (v : StaticVec T N) (other : List T) :
    StaticVec T N × Except StaticVecError Unit :=
  let old_len := v.len
  match resize v (old_len + other.length) with
  | (v', .error e) => (v', .error e)
  | (v', .ok _) => ({ v' with data := writeAt v'.data old_len other }, .ok ())

/-- `StaticVec::try_extend_from_iter`: for each item, `resize(len + 1)?` then
write slot `len`. The middle component is the state of the iterator after
the call returns: on failure the overflowing item has already been consumed.
-/
def try_extend_from_iter (v : StaticVec T N) :
    List T → StaticVec T N × List T × Except StaticVecError Unit
  | [] => (v, [], .ok ())
  | it :: rest =>
    let last_item := v.len
    match resize v (last_item + 1) with
    | (v', .error e) => (v', rest, .error e)
    | (v', .ok _) =>
      try_extend_from_iter { v' with data := v'.data.set last_item (some it) } rest

/-- `extend_array`: an uninitialized `[MaybeUninit<T>; N]` with the values of
`a` written at indices `[0, a.length)`. -/
def extend_array (a : List T) (N : Nat) : List (Option T) :=
  a.map some ++ List.replicate (N - a.length) none

/-- `StaticVec::from_array` (requires `a.length ≤ N` via `[(); N - A]:`):
`extend_array` then `.into()` (sets `len = N`) then `resize(A).unwrap()`.
Net effect: `len = a.length`. -/
def from_array (a : List T) : StaticVec T N :=
  { len := a.length, data := extend_array a N }

/-- `impl From<[T; N]> for StaticVec<T, N>`: every slot written, `len = N`. -/
def ofArray (a : List T) : StaticVec T N :=
  { len := N, data := a.map some }

/-- The storage array after `remove`'s
`ptr::copy(ptr.add(1), ptr, len - index - 1)`: slots `[index, len - 1)` take
the value of the slot one above, all other slots keep their value. -/
def removeData (d : List (Option T)) (index len : Nat) : List (Option T) :=
  (List.range d.length).map (fun j =>
    if index ≤ j ∧ j + 1 < len then nth d (j + 1) else nth d j)

/-- `StaticVec::remove`: asserts `len > 0` and `index < len` (modelled as
`none` = panic), reads the slot at `index`, shifts `(index, len)` down by
one, decrements `len`. -/
def remove (v : StaticVec T N) (index : Nat) :
    Option (Option T × StaticVec T N) :=
  let len := v.len
  if len > 0 ∧ index < len then
    some (nth v.data index,
      { len := v.len - 1, data := removeData v.data index len })
  else none

/-- `Clone for StaticVec`: clone `as_slice()` into a fresh uninitialized
array, keep `len`. -/
def clone (v : StaticVec T N) : StaticVec T N :=
  { len := v.len, data := v.data.take v.len ++ List.replicate (N - v.len) none }

end StaticVec

instance {T : Type} {N : Nat} : Inhabited (StaticVec T N) :=
  ⟨{ len := 0, data := List.replicate N none }⟩

/-- `Default for StaticVec`: empty store, all slots uninitialized. -/
def StaticVec.defaultVec {T : Type} {N : Nat} : StaticVec T N :=
  { len := 0, data := List.replicate N none }

/-! ### The racing combinators -/

/-- `either::Either`, the result type of `SelectVecAndFut::poll`. -/
inductive Either (L R : Type) where
  | left (l : L)
  | right (r : R)
deriving Repr, DecidableEq

/-- Poll the future stored in one slot, for this round: an uninitialized
slot is never reached by well-formed callers; polling it yields `Pending`. -/
def pollSlot {T A : Type} (p : T → Option A) (s : Option T) : Option A :=
  s.bind p

/-- The store after the `self_mut.0.remove(i)` call inside the poll loops
(total wrapper; the loops only call it with `i < len`, where `remove`
does not panic). -/
def removeTotal {T : Type} {N : Nat} (v : StaticVec T N) (i : Nat) : StaticVec T N :=
  match v.remove i with
  | some (_, v') => v'
  | none => v

/-- The loop `for i in 0..self.0.len()` of `SelectVec::poll`, started at
index `i` with `fuel` iterations remaining (`fuel = len - i` at entry):
poll the slot at each index; on the first `Ready(x)`, remove that slot and
return `Ready(x)`; if the loop ends, return `Pending`. -/
def selectVecPollFrom {T A : Type} {N : Nat} (p : T → Option A) (v : StaticVec T N) :
    Nat → Nat → StaticVec T N × Option A
  | 0, _ => (v, none)
  | fuel + 1, i =>
    if i < v.len then
      match pollSlot p (nth v.data i) with
      | some x => (removeTotal v i, some x)
      | none => selectVecPollFrom p v fuel (i + 1)
    else (v, none)

/-- `SelectVec::poll`: one poll round over the whole store.
`(v', some x)` models `Poll::Ready(x)` with the store left as `v'`;
`(v', none)` models `Poll::Pending`. -/
def selectVecPoll {T A : Type} {N : Nat} (p : T → Option A) (v : StaticVec T N) :
    StaticVec T N × Option A :=
  selectVecPollFrom p v v.len 0

/-- The store-scanning loop of `SelectVecAndFut::poll` (textually the same
loop as in `SelectVec::poll`, but wrapping the winner in `Either::Right`). -/
def selectVecAndFutPollFrom {T A B : Type} {N : Nat} (p : T → Option A)
    (v : StaticVec T N) : Nat → Nat → StaticVec T N × Option (Either B A)
  | 0, _ => (v, none)
  | fuel + 1, i =>
    if i < v.len then
      match pollSlot p (nth v.data i) with
      | some x => (removeTotal v i, some (.right x))
      | none => selectVecAndFutPollFrom p v fuel (i + 1)
    else (v, none)

/-- `SelectVecAndFut::poll`: polls the extra future (`q` is its outcome this
round) first; if it is ready, return `Left` of its result without touching
the store; otherwise scan the store as `SelectVec::poll` does, tagging a
winner with `Right`. -/
def selectVecAndFutPoll {T A B : Type} {N : Nat} (p : T → Option A)
    (q : Option B) (v : StaticVec T N) : StaticVec T N × Option (Either B A) :=
  match q with
  | some b => (v, some (.left b))
  | none => selectVecAndFutPollFrom p v v.len 0

/-- `k` successive poll rounds of `SelectVec` (the per-round outcome
functions may differ between rounds), keeping the store mutations. -/
def runRounds {T A : Type} {N : Nat} (ps : Nat → T → Option A)
    (v : StaticVec T N) : Nat → StaticVec T N
  | 0 => v
  | k + 1 => (selectVecPoll (ps k) (runRounds ps v k)).1

/-! ### Helper lemmas about `nth` -/

theorem nth_nil {T : Type} (j : Nat) : nth ([] : List (Option T)) j = none := by
  cases j <;> rfl

theorem nth_cons_succ {T : Type} (x : Option T) (xs : List (Option T)) (j : Nat) :
    nth (x :: xs) (j + 1) = nth xs j := rfl

theorem nth_eq_none_of_le {T : Type} :
    ∀ (d : List (Option T)) (j : Nat), d.length ≤ j → nth d j = none := by
  intro d
  induction d with
  | nil => intro j _; exact nth_nil j
  | cons x xs ih =>
    intro j hj
    cases j with
    | zero => simp at hj
    | succ j => exact ih j (by simpa using hj)

theorem ext_nth {T : Type} :
    ∀ (d₁ d₂ : List (Option T)), d₁.length = d₂.length →
      (∀ j, j < d₁.length → nth d₁ j = nth d₂ j) → d₁ = d₂ := by
  intro d₁
  induction d₁ with
  | nil =>
    intro d₂ hlen _
    cases d₂ with
    | nil => rfl
    | cons y ys => simp at hlen
  | cons x xs ih =>
    intro d₂ hlen hj
    cases d₂ with
    | nil => simp at hlen
    | cons y ys =>
      have hx : x = y := hj 0 (by simp)
      have hxs : xs = ys := by
        apply ih ys (by simpa using hlen)
        intro j hjlt
        have := hj (j + 1) (by simpa using Nat.succ_lt_succ hjlt)
        simpa [nth] using this
      rw [hx, hxs]

theorem nth_append {T : Type} :
    ∀ (a b : List (Option T)) (j : Nat),
      nth (a ++ b) j = if j < a.length then nth a j else nth b (j - a.length) := by
  intro a
  induction a with
  | nil => intro b j; simp [nth_nil]
  | cons x xs ih =>
    intro b j
    cases j with
    | zero => simp [nth]
    | succ j =>
      simp only [List.cons_append, nth_cons_succ, ih, List.length_cons]
      by_cases h : j < xs.length
      · rw [if_pos h, if_pos (Nat.succ_lt_succ h)]
      · rw [if_neg h, if_neg (fun hc => h (Nat.lt_of_succ_lt_succ hc)),
          Nat.succ_sub_succ]

theorem nth_take {T : Type} :
    ∀ (d : List (Option T)) (n j : Nat),
      nth (d.take n) j = if j < n then nth d j else none := by
  intro d
  induction d with
  | nil => intro n j; simp [nth_nil]
  | cons x xs ih =>
    intro n j
    cases n with
    | zero => simp [nth_nil]
    | succ n =>
      cases j with
      | zero => simp [nth]
      | succ j =>
        simp only [List.take_succ_cons, nth_cons_succ, ih]
        by_cases h : j < n
        · rw [if_pos h, if_pos (Nat.succ_lt_succ h)]
        · rw [if_neg h, if_neg (fun hc => h (Nat.lt_of_succ_lt_succ hc))]

theorem nth_drop {T : Type} :
    ∀ (d : List (Option T)) (n j : Nat), nth (d.drop n) j = nth d (n + j) := by
  intro d
  induction d with
  | nil => intro n j; simp [nth_nil]
  | cons x xs ih =>
    intro n j
    cases n with
    | zero => simp
    | succ n =>
      simp only [List.drop_succ_cons, ih, Nat.succ_add, nth_cons_succ]

theorem nth_set {T : Type} :
    ∀ (d : List (Option T)) (k j : Nat) (a : Option T),
      nth (d.set k a) j = if k = j ∧ j < d.length then a else nth d j := by
  intro d
  induction d with
  | nil => intro k j a; simp [nth_nil]
  | cons x xs ih =>
    intro k j a
    cases k with
    | zero =>
      cases j with
      | zero => simp [nth]
      | succ j => simp [nth]
    | succ k =>
      cases j with
      | zero => simp [nth]
      | succ j =>
        simp only [List.set_cons_succ, nth_cons_succ, ih, List.length_cons]
        by_cases h : k = j ∧ j < xs.length
        · rw [if_pos h, if_pos ⟨by omega, by omega⟩]
        · rw [if_neg h, if_neg (by omega)]

theorem nth_replicate {T : Type} :
    ∀ (n j : Nat), nth (List.replicate n (none : Option T)) j = none := by
  intro n
  induction n with
  | zero => intro j; simp [nth_nil]
  | succ n ih =>
    intro j
    cases j with
    | zero => rfl
    | succ j => simpa [List.replicate_succ] using ih j

theorem nth_map_some {T : Type} :
    ∀ (l : List T) (j : Nat), nth (l.map some) j = l.get? j := by
  intro l
  induction l with
  | nil => intro j; simp [nth_nil]
  | cons x xs ih =>
    intro j
    cases j with
    | zero => rfl
    | succ j => simpa using ih j

theorem nth_range_map {T : Type} (f : Nat → Option T) :
    ∀ (n j : Nat), j < n → nth ((List.range n).map f) j = f j := by
  intro n
  induction n with
  | zero => intro j hj; omega
  | succ n ih =>
    intro j hj
    rw [List.range_succ, List.map_append]
    rw [nth_append]
    by_cases h : j < n
    · rw [if_pos (by simpa using h), ih j h]
    · have hjn : j = n := by omega
      rw [if_neg (by simpa using h)]
      subst hjn
      simp [nth]

/-! ### Characterizations of `writeAt` and `removeData` -/

theorem length_writeAt {T : Type} :
    ∀ (xs : List T) (d : List (Option T)) (s : Nat),
      (StaticVec.writeAt d s xs).length = d.length := by
  intro xs
  induction xs with
  | nil => intro d s; rfl
  | cons x xs ih =>
    intro d s
    simp only [StaticVec.writeAt, ih, List.length_set]

theorem nth_writeAt {T : Type} :
    ∀ (xs : List T) (d : List (Option T)) (s j : Nat),
      s + xs.length ≤ d.length →
      nth (StaticVec.writeAt d s xs) j =
        if s ≤ j ∧ j < s + xs.length then xs.get? (j - s) else nth d j := by
  intro xs
  induction xs with
  | nil =>
    intro d s j _
    simp only [List.length_nil, Nat.add_zero]
    rw [if_neg (by omega)]
    rfl
  | cons x xs ih =>
    intro d s j hlen
    simp only [List.length_cons] at hlen
    have hset : (d.set s (some x)).length = d.length := List.length_set ..
    have hrec := ih (d.set s (some x)) (s + 1) j (by rw [hset]; omega)
    simp only [StaticVec.writeAt]
    rw [hrec]
    simp only [List.length_cons]
    by_cases h1 : s + 1 ≤ j ∧ j < s + 1 + xs.length
    · rw [if_pos h1, if_pos (by omega)]
      have hji : j - s = (j - (s + 1)) + 1 := by omega
      rw [hji]
      rfl
    · rw [if_neg h1, nth_set]
      by_cases h2 : s = j ∧ j < d.length
      · rw [if_pos h2, if_pos (by omega)]
        have hj0 : j - s = 0 := by omega
        rw [hj0]
        rfl
      · rw [if_neg h2, if_neg (by omega)]

theorem length_removeData {T : Type} (d : List (Option T)) (i len : Nat) :
    (StaticVec.removeData d i len).length = d.length := by
  simp [StaticVec.removeData]

theorem nth_removeData {T : Type} (d : List (Option T)) (i len j : Nat)
    (hj : j < d.length) :
    nth (StaticVec.removeData d i len) j =
      if i ≤ j ∧ j + 1 < len then nth d (j + 1) else nth d j := by
  simpa [StaticVec.removeData] using
    nth_range_map (fun j => if i ≤ j ∧ j + 1 < len then nth d (j + 1) else nth d j)
      d.length j hj

/-! ### View-level helper lemmas -/

theorem as_slice_length {T : Type} {N : Nat} (v : StaticVec T N)
    (hd : v.data.length = N) (hl : v.len ≤ N) :
    v.as_slice.length = v.len := by
  simp [StaticVec.as_slice, hd, hl]

theorem nth_as_slice {T : Type} {N : Nat} (v : StaticVec T N) (j : Nat) :
    nth v.as_slice j = if j < v.len then nth v.data j else none := by
  simp [StaticVec.as_slice, nth_take]

/-- The view after a successful bulk write at the old length is the old
view followed by the written items. -/
theorem take_writeAt_as_append {T : Type} (d : List (Option T)) (ln : Nat)
    (xs : List T) (hln : ln + xs.length ≤ d.length) :
    (StaticVec.writeAt d ln xs).take (ln + xs.length) =
      d.take ln ++ xs.map some := by
  apply ext_nth
  · rw [List.length_take, length_writeAt]
    simp only [List.length_append, List.length_take, List.length_map]
    omega
  · intro j hjlt
    rw [List.length_take, length_writeAt] at hjlt
    have hj : j < ln + xs.length := lt_of_lt_of_le hjlt (min_le_left _ _)
    rw [nth_take, if_pos hj, nth_writeAt xs d ln j hln, nth_append]
    by_cases h : ln ≤ j
    · rw [if_pos ⟨h, hj⟩,
        if_neg (by rw [List.length_take]; omega)]
      rw [List.length_take, nth_map_some]
      congr 1
      omega
    · rw [if_neg (by omega), if_pos (by rw [List.length_take]; omega), nth_take,
        if_pos (by omega)]

/-- The view after `remove i` is the old view with index `i` erased
(prefix before `i`, then suffix after `i`, order preserved). -/
theorem take_removeData_as_erase {T : Type} (d : List (Option T)) (i len : Nat)
    (hlen : len ≤ d.length) (hi : i < len) :
    (StaticVec.removeData d i len).take (len - 1) =
      (d.take len).take i ++ (d.take len).drop (i + 1) := by
  apply ext_nth
  · rw [List.length_take, length_removeData, List.length_append,
      List.length_take, List.length_take, List.length_drop, List.length_take]
    omega
  · intro j hjlt
    rw [List.length_take, length_removeData] at hjlt
    have hj : j < len - 1 := lt_of_lt_of_le hjlt (min_le_left _ _)
    rw [nth_take, if_pos hj,
      nth_removeData d i len j (by omega), nth_append]
    by_cases h : j < i
    · rw [if_neg (by omega),
        if_pos (by rw [List.length_take, List.length_take]; omega),
        nth_take, nth_take, if_pos (by omega), if_pos (by omega)]
    · rw [if_pos (by omega),
        if_neg (by rw [List.length_take, List.length_take]; omega),
        List.length_take, List.length_take, nth_drop, nth_take]
      rw [if_pos (by omega)]
      congr 1
      omega

/-! ### Poll-loop characterization lemmas -/

/-- If every slot from `i` on is pending this round, the scan loop reports
`Pending` and leaves the store untouched. -/
theorem selectVecPollFrom_pending {T A : Type} {N : Nat} (p : T → Option A)
    (v : StaticVec T N) :
    ∀ (fuel i : Nat), (∀ j, i ≤ j → j < v.len → pollSlot p (nth v.data j) = none) →
      selectVecPollFrom p v fuel i = (v, none) := by
  intro fuel
  induction fuel with
  | zero => intro i _; rfl
  | succ fuel ih =>
    intro i hall
    simp only [selectVecPollFrom]
    by_cases hi : i < v.len
    · rw [if_pos hi, hall i (Nat.le_refl i) hi]
      exact ih (i + 1) (fun j hj hjlt => hall j (by omega) hjlt)
    · rw [if_neg hi]

/-- If `i₀` is the first index at or after `i` whose slot completes this
round, the scan loop removes exactly index `i₀` and reports its result. -/
theorem selectVecPollFrom_found {T A : Type} {N : Nat} (p : T → Option A)
    (v : StaticVec T N) (i₀ : Nat) (x : A)
    (hlt : i₀ < v.len) (hready : pollSlot p (nth v.data i₀) = some x) :
    ∀ (fuel i : Nat), i ≤ i₀ → i₀ < i + fuel →
      (∀ j, i ≤ j → j < i₀ → pollSlot p (nth v.data j) = none) →
      selectVecPollFrom p v fuel i = (removeTotal v i₀, some x) := by
  intro fuel
  induction fuel with
  | zero => intro i hle hfuel _; omega
  | succ fuel ih =>
    intro i hle hfuel hmin
    simp only [selectVecPollFrom]
    rw [if_pos (by omega)]
    by_cases hi : i = i₀
    · subst hi
      rw [hready]
    · rw [hmin i (Nat.le_refl i) (by omega)]
      exact ih (i + 1) (by omega) (by omega) (fun j hj hjlt => hmin j (by omega) hjlt)

/-- The store-scanning loop of `SelectVecAndFut::poll` behaves exactly as
the loop of `SelectVec::poll`, with the winner wrapped in `Either.right`. -/
theorem selectVecAndFutPollFrom_eq {T A B : Type} {N : Nat} (p : T → Option A)
    (v : StaticVec T N) :
    ∀ (fuel i : Nat),
      selectVecAndFutPollFrom (B := B) p v fuel i =
        ((selectVecPollFrom p v fuel i).1,
          (selectVecPollFrom p v fuel i).2.map Either.right) := by
  intro fuel
  induction fuel with
  | zero => intro i; rfl
  | succ fuel ih =>
    intro i
    simp only [selectVecAndFutPollFrom, selectVecPollFrom]
    by_cases hi : i < v.len
    · rw [if_pos hi, if_pos hi]
      cases hslot : pollSlot p (nth v.data i) with
      | some x => rfl
      | none => exact ih (i + 1)
    · rw [if_neg hi, if_neg hi]
      rfl

/-- `removeTotal` at a valid index: length drops by one and the view is the
old view with index `i` erased. -/
theorem removeTotal_spec {T : Type} {N : Nat} (v : StaticVec T N) (i : Nat)
    (hd : v.data.length = N) (hl : v.len ≤ N) (hi : i < v.len) :
    (removeTotal v i).len = v.len - 1 ∧
      (removeTotal v i).as_slice = v.as_slice.take i ++ v.as_slice.drop (i + 1) := by
  have hpos : v.len > 0 := by omega
  simp only [removeTotal, StaticVec.remove, if_pos (And.intro hpos hi)]
  constructor
  · trivial
  · simpa [StaticVec.as_slice] using
      take_removeData_as_erase v.data i v.len (by omega) hi

/-! ### Full characterization of `try_extend_from_iter` -/

/-- `try_extend_from_iter`, both outcomes: if everything fits, all items are
written after the old prefix and the iterator is exhausted; otherwise the
items that fit are written, the first item that did not fit has been
consumed from the iterator and dropped, and the call fails. -/
theorem try_extend_from_iter_spec {T : Type} {N : Nat} :
    ∀ (l : List T) (v : StaticVec T N), v.len ≤ N →
      (l.length ≤ N - v.len →
        v.try_extend_from_iter l =
          ({ len := v.len + l.length, data := StaticVec.writeAt v.data v.len l },
            [], .ok ())) ∧
      (N - v.len < l.length →
        v.try_extend_from_iter l =
          ({ len := N, data := StaticVec.writeAt v.data v.len (l.take (N - v.len)) },
            l.drop (N - v.len + 1), .error .CapacityExceeded)) := by
  intro l
  induction l with
  | nil =>
    intro v hl
    constructor
    · intro _
      rfl
    · intro h
      simp at h
  | cons it rest ih =>
    intro v hl
    by_cases hfull : v.len = N
    · constructor
      · intro h
        simp only [List.length_cons] at h
        omega
      · intro _
        simp only [StaticVec.try_extend_from_iter, StaticVec.resize,
          if_pos (by omega : v.len + 1 > N)]
        have hz : N - v.len = 0 := by omega
        rw [hz]
        simp only [List.take_zero, List.drop_one, List.drop_zero, Nat.zero_add,
          List.tail_cons, StaticVec.writeAt]
        obtain ⟨vl, vd⟩ := v
        have hf2 : vl = N := hfull
        subst hf2
        rfl
    · have hlt : v.len < N := by omega
      have hrec := ih { len := v.len + 1, data := v.data.set v.len (some it) }
        (show v.len + 1 ≤ N from by omega)
      simp only [StaticVec.try_extend_from_iter, StaticVec.resize,
        if_neg (by omega : ¬ v.len + 1 > N)]
      constructor
      · intro h
        simp only [List.length_cons] at h
        have heq := hrec.1 (show rest.length ≤ N - (v.len + 1) from by omega)
        dsimp only at heq
        rw [heq]
        simp only [List.length_cons]
        have hadd : v.len + (rest.length + 1) = v.len + 1 + rest.length := by omega
        rw [hadd]
        rfl
      · intro h
        simp only [List.length_cons] at h
        have heq := hrec.2 (show N - (v.len + 1) < rest.length from by omega)
        dsimp only at heq
        rw [heq]
        have hk : N - v.len = (N - (v.len + 1)) + 1 := by omega
        rw [hk]
        simp only [List.take_succ_cons, List.drop_succ_cons]
        rfl

/-! ### Reachability machinery for the capacity invariant -/

/-- The mutating public operations of `StaticVec` (for `remove` with an
invalid index the program panics; the panicking run reaches no further
state, modelled by keeping the store). -/
inductive Op (T : Type) where
  | pushOp (x : T)
  | extendSliceOp (xs : List T)
  | extendIterOp (xs : List T)
  | removeOp (i : Nat)
  | resizeOp (n : Nat)
  | cloneOp

/-- One mutating operation applied to the store (the state kept by the
`&mut self` receiver, or the clone for `cloneOp`). -/
def step {T : Type} {N : Nat} (v : StaticVec T N) : Op T → StaticVec T N
  | .pushOp x => (v.push x).1
  | .extendSliceOp xs => (v.try_extend_from_slice xs).1
  | .extendIterOp xs => (v.try_extend_from_iter xs).1
  | .removeOp i => removeTotal v i
  | .resizeOp n => (v.resize n).1
  | .cloneOp => v.clone

/-- Well-formedness: the logical length never exceeds the capacity and the
storage array has exactly `N` slots. -/
def StoreWF {T : Type} {N : Nat} (v : StaticVec T N) : Prop :=
  v.len ≤ N ∧ v.data.length = N

/-- The constructors of `StaticVec`: `Default`, a successful `new`,
`from_array` (whose const-generic bound demands `a.length ≤ N`), and the
`From<[T; N]>` conversion. -/
def StoreInit {T : Type} {N : Nat} (v : StaticVec T N) : Prop :=
  v = StaticVec.defaultVec ∨ (∃ k, StaticVec.new k = Except.ok v) ∨
    (∃ a : List T, a.length ≤ N ∧ v = StaticVec.from_array a) ∨
    (∃ a : List T, a.length = N ∧ v = StaticVec.ofArray a)

theorem storeInit_wf {T : Type} {N : Nat} (v : StaticVec T N) (h : StoreInit v) : StoreWF v := by
  rcases h with h | ⟨k, hk⟩ | ⟨a, ha, hv⟩ | ⟨a, ha, hv⟩
  · subst h
    exact ⟨Nat.zero_le N, List.length_replicate ..⟩
  · by_cases hkN : k > N
    · simp [StaticVec.new, hkN] at hk
    · simp only [StaticVec.new, if_neg hkN, Except.ok.injEq] at hk
      subst hk
      exact ⟨show k ≤ N from by omega, List.length_replicate ..⟩
  · subst hv
    refine ⟨ha, ?_⟩
    simp only [StaticVec.from_array, StaticVec.extend_array, List.length_append,
      List.length_map, List.length_replicate]
    omega
  · subst hv
    exact ⟨Nat.le_refl N, by simp [StaticVec.ofArray, ha]⟩

theorem step_wf {T : Type} {N : Nat} (v : StaticVec T N) (op : Op T)
    (h : StoreWF v) : StoreWF (step v op) := by
  obtain ⟨hl, hd⟩ := h
  cases op with
  | pushOp x =>
    by_cases hc : v.len + 1 > N
    · simp only [step, StoreWF, StaticVec.push, StaticVec.resize, if_pos hc]
      exact ⟨hl, hd⟩
    · simp only [step, StoreWF, StaticVec.push, StaticVec.resize, if_neg hc,
        List.length_set]
      exact ⟨by omega, hd⟩
  | extendSliceOp xs =>
    by_cases hc : v.len + xs.length > N
    · simp only [step, StoreWF, StaticVec.try_extend_from_slice,
        StaticVec.resize, if_pos hc]
      exact ⟨hl, hd⟩
    · simp only [step, StoreWF, StaticVec.try_extend_from_slice,
        StaticVec.resize, if_neg hc, length_writeAt]
      exact ⟨by omega, hd⟩
  | extendIterOp xs =>
    by_cases hc : xs.length ≤ N - v.len
    · rw [step, (try_extend_from_iter_spec xs v hl).1 hc]
      exact ⟨show v.len + xs.length ≤ N from by omega,
        show (StaticVec.writeAt v.data v.len xs).length = N from by
          simpa [length_writeAt] using hd⟩
    · rw [step, (try_extend_from_iter_spec xs v hl).2 (by omega)]
      exact ⟨Nat.le_refl N, by simpa [length_writeAt] using hd⟩
  | removeOp i =>
    by_cases hc : v.len > 0 ∧ i < v.len
    · simp only [step, StoreWF, removeTotal, StaticVec.remove, if_pos hc,
        length_removeData]
      exact ⟨by omega, hd⟩
    · simp only [step, StoreWF, removeTotal, StaticVec.remove, if_neg hc]
      exact ⟨hl, hd⟩
  | resizeOp n =>
    by_cases hc : n > N
    · simp only [step, StoreWF, StaticVec.resize, if_pos hc]
      exact ⟨hl, hd⟩
    · simp only [step, StoreWF, StaticVec.resize, if_neg hc]
      exact ⟨by omega, hd⟩
  | cloneOp =>
    simp only [step, StoreWF, StaticVec.clone]
    refine ⟨hl, ?_⟩
    simp only [List.length_append, List.length_take, List.length_replicate, hd]
    omega

theorem foldl_step_wf {T : Type} {N : Nat} (v : StaticVec T N)
    (ops : List (Op T)) (h : StoreWF v) : StoreWF (ops.foldl step v) := by
  induction ops generalizing v with
  | nil => exact h
  | cons op ops ih => exact ih (step v op) (step_wf v op h)

/-! ### Claim theorems -/

/-- C1: one poll of `SelectVec` visits indices in increasing order from 0 and
resolves with the result of the lowest-indexed stored operation that
completes this round, removing exactly that operation from the store with
the order of the rest preserved; if no stored operation completes, the poll
reports pending and the store is unchanged. -/
theorem selectVec_poll_lowest_completed_wins {T A : Type} {N : Nat}
    (p : T → Option A) (v : StaticVec T N)
    (hd : v.data.length = N) (hl : v.len ≤ N) :
    (∀ (i₀ : Nat) (x : A), i₀ < v.len → pollSlot p (nth v.data i₀) = some x →
      (∀ j, j < i₀ → pollSlot p (nth v.data j) = none) →
      (selectVecPoll p v).2 = some x ∧
        (selectVecPoll p v).1.len = v.len - 1 ∧
        (selectVecPoll p v).1.as_slice =
          v.as_slice.take i₀ ++ v.as_slice.drop (i₀ + 1)) ∧
    ((∀ j, j < v.len → pollSlot p (nth v.data j) = none) →
      selectVecPoll p v = (v, none)) := by
  constructor
  · intro i₀ x h0 hready hmin
    have heq := selectVecPollFrom_found p v i₀ x h0 hready v.len 0
      (Nat.zero_le i₀) (by omega) (fun j _ hjlt => hmin j hjlt)
    rw [selectVecPoll, heq]
    obtain ⟨h1, h2⟩ := removeTotal_spec v i₀ hd hl h0
    exact ⟨rfl, h1, h2⟩
  · intro hall
    exact selectVecPollFrom_pending p v v.len 0 (fun j _ hj => hall j hj)

/-- C1 witness: store `[A, B, C]` where `A` (encoded `0`) is pending and `B`
(encoded `20`), `C` (encoded `30`) are complete: the poll returns `B`'s
result and the store becomes `[A, C]`. -/
theorem selectVec_poll_lowest_completed_wins_witness :
    (selectVecPoll (fun t : Nat => if t = 0 then none else some t)
        ({ len := 3, data := [some 0, some 20, some 30] } : StaticVec Nat 3)).2 =
      some 20 ∧
    (selectVecPoll (fun t : Nat => if t = 0 then none else some t)
        ({ len := 3, data := [some 0, some 20, some 30] } : StaticVec Nat 3)).1.as_slice =
      [some 0, some 30] := by
  have h := (selectVec_poll_lowest_completed_wins
      (fun t : Nat => if t = 0 then none else some t)
      ({ len := 3, data := [some 0, some 20, some 30] } : StaticVec Nat 3)
      rfl (by decide)).1 1 20 (by decide) (by decide) (by decide)
  exact ⟨h.1, h.2.2.trans (by decide)⟩

/-- C2: `SelectVecAndFut` polls the extra operation first; if it completes,
the result is tagged `Left` and the store is completely untouched;
otherwise the store is scanned exactly as `SelectVec` does, the winner's
result tagged `Right` and the winner removed. -/
theorem selectVecAndFut_poll_extra_first {T A B : Type} {N : Nat}
    (p : T → Option A) (q : Option B) (v : StaticVec T N) :
    (∀ b, q = some b → selectVecAndFutPoll p q v = (v, some (Either.left b))) ∧
    (q = none →
      selectVecAndFutPoll p q v =
        ((selectVecPoll p v).1, (selectVecPoll p v).2.map Either.right)) := by
  constructor
  · intro b hb
    subst hb
    rfl
  · intro hq
    subst hq
    simpa [selectVecAndFutPoll, selectVecPoll] using
      selectVecAndFutPollFrom_eq (B := B) p v v.len 0

/-- C2 witness: an already-complete extra operation wins and the store (both
of whose operations are also complete) stays exactly as it was. -/
theorem selectVecAndFut_poll_extra_first_witness :
    selectVecAndFutPoll (fun t : Nat => some t) (some (7 : Nat))
        ({ len := 2, data := [some 1, some 2] } : StaticVec Nat 2) =
      ({ len := 2, data := [some 1, some 2] }, some (Either.left 7)) ∧
    selectVecAndFutPoll (fun t : Nat => some t) (none : Option Nat)
        ({ len := 2, data := [some 1, some 2] } : StaticVec Nat 2) =
      ((selectVecPoll (fun t : Nat => some t)
          ({ len := 2, data := [some 1, some 2] } : StaticVec Nat 2)).1,
        (selectVecPoll (fun t : Nat => some t)
          ({ len := 2, data := [some 1, some 2] } : StaticVec Nat 2)).2.map
          Either.right) :=
  ⟨(selectVecAndFut_poll_extra_first (fun t : Nat => some t) (some 7)
      ({ len := 2, data := [some 1, some 2] } : StaticVec Nat 2)).1 7 rfl,
    (selectVecAndFut_poll_extra_first (fun t : Nat => some t) none
      ({ len := 2, data := [some 1, some 2] } : StaticVec Nat 2)).2 rfl⟩

/-- C3: `try_extend_from_slice` is atomic: when `len + items.len() > N` it
fails with `CapacityExceeded` and the store is exactly as before the call;
otherwise it appends all items contiguously in order and the length grows
by `items.len()`. -/
theorem try_extend_from_slice_atomic {T : Type} {N : Nat} (v : StaticVec T N)
    (other : List T) (hd : v.data.length = N) (hl : v.len ≤ N) :
    (N < v.len + other.length →
      v.try_extend_from_slice other = (v, .error .CapacityExceeded)) ∧
    (v.len + other.length ≤ N →
      (v.try_extend_from_slice other).2 = .ok () ∧
      (v.try_extend_from_slice other).1.len = v.len + other.length ∧
      (v.try_extend_from_slice other).1.as_slice =
        v.as_slice ++ other.map some) := by
  constructor
  · intro hc
    simp only [StaticVec.try_extend_from_slice, StaticVec.resize,
      if_pos (show v.len + other.length > N from hc)]
  · intro hc
    simp only [StaticVec.try_extend_from_slice, StaticVec.resize,
      if_neg (show ¬ v.len + other.length > N from by omega)]
    refine ⟨by trivial, by trivial, ?_⟩
    simpa [StaticVec.as_slice] using
      take_writeAt_as_append v.data v.len other (by omega)

/-- C3 witness: extending `[]` by `[4, 5]` in a capacity-2 store succeeds and
stores both items; extending `[9]` by `[4, 5]` fails and leaves the store
identical. -/
theorem try_extend_from_slice_atomic_witness :
    (StaticVec.try_extend_from_slice
        ({ len := 0, data := [none, none] } : StaticVec Nat 2) [4, 5]).1.as_slice =
      [some 4, some 5] ∧
    StaticVec.try_extend_from_slice
        ({ len := 1, data := [some 9, none] } : StaticVec Nat 2) [4, 5] =
      ({ len := 1, data := [some 9, none] }, .error .CapacityExceeded) := by
  constructor
  · exact ((try_extend_from_slice_atomic
      ({ len := 0, data := [none, none] } : StaticVec Nat 2) [4, 5] rfl
      (by decide)).2 (by decide)).2.2.trans (by decide)
  · exact (try_extend_from_slice_atomic
      ({ len := 1, data := [some 9, none] } : StaticVec Nat 2) [4, 5] rfl
      (by decide)).1 (by decide)

/-- C4: `try_extend_from_iter` is non-atomic: items are appended one at a
time in source order; a source of at most `N - len` items succeeds and
appends them all, while a longer source fails with `CapacityExceeded`
leaving the original elements followed by exactly the prefix that fit. -/
theorem try_extend_from_iter_nonatomic {T : Type} {N : Nat} (v : StaticVec T N)
    (l : List T) (hd : v.data.length = N) (hl : v.len ≤ N) :
    (l.length ≤ N - v.len →
      (v.try_extend_from_iter l).2.2 = .ok () ∧
      (v.try_extend_from_iter l).1.len = v.len + l.length ∧
      (v.try_extend_from_iter l).1.as_slice = v.as_slice ++ l.map some) ∧
    (N - v.len < l.length →
      (v.try_extend_from_iter l).2.2 = .error .CapacityExceeded ∧
      (v.try_extend_from_iter l).1.len = N ∧
      (v.try_extend_from_iter l).1.as_slice =
        v.as_slice ++ (l.take (N - v.len)).map some) := by
  constructor
  · intro hc
    rw [(try_extend_from_iter_spec l v hl).1 hc]
    refine ⟨rfl, rfl, ?_⟩
    simpa [StaticVec.as_slice] using
      take_writeAt_as_append v.data v.len l (by omega)
  · intro hc
    rw [(try_extend_from_iter_spec l v hl).2 hc]
    refine ⟨rfl, rfl, ?_⟩
    have htk : (l.take (N - v.len)).length = N - v.len := by
      rw [List.length_take]
      omega
    have := take_writeAt_as_append v.data v.len (l.take (N - v.len))
      (by rw [htk]; omega)
    rw [htk] at this
    have hN : v.len + (N - v.len) = N := by omega
    rw [hN] at this
    simpa [StaticVec.as_slice] using this

/-- C4 witness: in a capacity-2 store holding `[9]`, the source `[4]` fits
and is appended in full, while the source `[4, 5]` overflows: the call
fails yet `4` (the element that fit) stays appended. -/
theorem try_extend_from_iter_nonatomic_witness :
    (StaticVec.try_extend_from_iter
        ({ len := 1, data := [some 9, none] } : StaticVec Nat 2) [4]).1.as_slice =
      [some 9, some 4] ∧
    (StaticVec.try_extend_from_iter
        ({ len := 1, data := [some 9, none] } : StaticVec Nat 2) [4, 5]).2.2 =
      .error .CapacityExceeded ∧
    (StaticVec.try_extend_from_iter
        ({ len := 1, data := [some 9, none] } : StaticVec Nat 2) [4, 5]).1.as_slice =
      [some 9, some 4] := by
  refine ⟨?_, ?_, ?_⟩
  · exact ((try_extend_from_iter_nonatomic
      ({ len := 1, data := [some 9, none] } : StaticVec Nat 2) [4] rfl
      (by decide)).1 (by decide)).2.2.trans (by decide)
  · exact ((try_extend_from_iter_nonatomic
      ({ len := 1, data := [some 9, none] } : StaticVec Nat 2) [4, 5] rfl
      (by decide)).2 (by decide)).1
  · exact ((try_extend_from_iter_nonatomic
      ({ len := 1, data := [some 9, none] } : StaticVec Nat 2) [4, 5] rfl
      (by decide)).2 (by decide)).2.2.trans (by decide)

/-- C5: `push` appends the item at index `length` and increments `length`
when `length < N`; when `length == N` it fails with `CapacityExceeded` and
leaves the store (length and contents) unchanged. -/
theorem push_spec {T : Type} {N : Nat} (v : StaticVec T N) (item : T)
    (hd : v.data.length = N) (hl : v.len ≤ N) :
    (v.len < N →
      (v.push item).2 = .ok () ∧
      (v.push item).1.len = v.len + 1 ∧
      (v.push item).1.as_slice = v.as_slice ++ [some item]) ∧
    (v.len = N → v.push item = (v, .error .CapacityExceeded)) := by
  constructor
  · intro hc
    simp only [StaticVec.push, StaticVec.resize,
      if_neg (show ¬ v.len + 1 > N from by omega)]
    refine ⟨by trivial, by trivial, ?_⟩
    have := take_writeAt_as_append v.data v.len [item] (by simp; omega)
    simpa [StaticVec.as_slice, StaticVec.writeAt] using this
  · intro hc
    simp only [StaticVec.push, StaticVec.resize,
      if_pos (show v.len + 1 > N from by omega)]

/-- C5 witness: pushing into a full capacity-1 store fails and leaves it
unchanged; pushing into a store with room appends at index `length`. -/
theorem push_spec_witness :
    StaticVec.push ({ len := 1, data := [some 3] } : StaticVec Nat 1) 4 =
      ({ len := 1, data := [some 3] }, .error .CapacityExceeded) ∧
    (StaticVec.push ({ len := 1, data := [some 3, none] } : StaticVec Nat 2) 4).1.as_slice =
      [some 3, some 4] := by
  constructor
  · exact (push_spec ({ len := 1, data := [some 3] } : StaticVec Nat 1) 4 rfl
      (by decide)).2 rfl
  · exact ((push_spec ({ len := 1, data := [some 3, none] } : StaticVec Nat 2) 4 rfl
      (by decide)).1 (by decide)).2.2.trans (by decide)

/-- C6: for a store of length `L ≥ 1` and `i < L`, `remove i` returns the
element of view index `i` and leaves a store of length `L - 1` equal to the
old view with index `i` erased (stable shift-down, order preserved); for
`i ≥ L` (including the empty store) `remove` fails fast via assertion
(modelled as `none`) rather than returning a recoverable error. -/
theorem remove_spec {T : Type} {N : Nat} (v : StaticVec T N) (i : Nat)
    (hd : v.data.length = N) (hl : v.len ≤ N) :
    (∀ (r : Option T) (v' : StaticVec T N), i < v.len →
      v.remove i = some (r, v') →
      r = nth v.as_slice i ∧ v'.len = v.len - 1 ∧
        v'.as_slice = v.as_slice.take i ++ v.as_slice.drop (i + 1)) ∧
    (i < v.len → (v.remove i).isSome = true) ∧
    (v.len ≤ i → v.remove i = none) := by
  refine ⟨?_, ?_, ?_⟩
  · intro r v' hi heq
    rw [StaticVec.remove] at heq
    rw [if_pos (show v.len > 0 ∧ i < v.len from ⟨by omega, hi⟩)] at heq
    have hr : r = nth v.data i := by
      have := congrArg (fun o => o.map Prod.fst) heq
      simpa using this.symm
    have hv' : v' = { len := v.len - 1, data := StaticVec.removeData v.data i v.len } := by
      have := congrArg (fun o => o.map Prod.snd) heq
      simpa using this.symm
    subst hv'
    refine ⟨?_, by trivial, ?_⟩
    · rw [hr, nth_as_slice, if_pos hi]
    · simpa [StaticVec.as_slice] using
        take_removeData_as_erase v.data i v.len (by omega) hi
  · intro hi
    rw [StaticVec.remove, if_pos (show v.len > 0 ∧ i < v.len from ⟨by omega, hi⟩)]
    rfl
  · intro hi
    rw [StaticVec.remove, if_neg (show ¬ (v.len > 0 ∧ i < v.len) from by omega)]

/-- C6 witness: removing index 1 from `[1, 2, 3]` returns `2` and leaves the
view `[1, 3]`; removing index 0 from an empty store fails fast. -/
theorem remove_spec_witness :
    ({ len := 2, data := [some 1, some 3, some 3] } : StaticVec Nat 3).as_slice =
      [some 1, some 3] ∧
    (some 2 : Option Nat) =
      nth ({ len := 3, data := [some 1, some 2, some 3] } : StaticVec Nat 3).as_slice 1 ∧
    StaticVec.remove ({ len := 0, data := [none] } : StaticVec Nat 1) 0 = none := by
  have h := (remove_spec ({ len := 3, data := [some 1, some 2, some 3] } : StaticVec Nat 3)
      1 rfl (by decide)).1 (some 2)
      ({ len := 2, data := [some 1, some 3, some 3] } : StaticVec Nat 3)
      (by decide) (by decide)
  refine ⟨h.2.2.trans (by decide), h.1, ?_⟩
  exact (remove_spec ({ len := 0, data := [none] } : StaticVec Nat 1) 0 rfl
    (by decide)).2.2 (by decide)

/-- C7 (refuted by the code): the claim says no view is ever constructed
over an unwritten slot, but `new(1)` succeeds with `len = 1` and an
all-uninitialized array, and the immediately available `as_slice` view
covers exactly that unwritten slot (`none` = never written). -/
theorem as_slice_exposes_unwritten_slot :
    (StaticVec.new 1 : Except StaticVecError (StaticVec Nat 1)) =
      Except.ok { len := 1, data := [none] } ∧
    ({ len := 1, data := [none] } : StaticVec Nat 1).as_slice = [none] := by
  constructor
  · rfl
  · rfl

/-- C8: `0 ≤ length ≤ N` holds for every store reachable from any
constructor (`Default`, `new`, `from_array`, `From<[T; N]>`) by any
sequence of public mutating operations; moreover the length-setting
choke point `resize` fails with `CapacityExceeded` and leaves the store
unchanged whenever asked for a length above `N`, as does `new`. -/
theorem len_le_capacity_invariant {T : Type} {N : Nat} (v0 : StaticVec T N)
    (h0 : StoreInit v0) (ops : List (Op T)) :
    (ops.foldl step v0).len ≤ N ∧
    (∀ (v : StaticVec T N) (n : Nat), N < n →
      v.resize n = (v, .error .CapacityExceeded)) ∧
    (∀ k : Nat, N < k →
      (StaticVec.new k : Except StaticVecError (StaticVec T N)) =
        .error .CapacityExceeded) := by
  refine ⟨(foldl_step_wf v0 ops (storeInit_wf v0 h0)).1, ?_, ?_⟩
  · intro v n hn
    simp [StaticVec.resize, hn]
  · intro k hk
    simp [StaticVec.new, hk]

/-- C8 witness: three pushes into a capacity-2 store keep `length ≤ 2`, and
a `resize` to 3 fails leaving the store unchanged. -/
theorem len_le_capacity_invariant_witness :
    ([Op.pushOp 5, Op.pushOp 6, Op.pushOp 7].foldl step
        (StaticVec.defaultVec : StaticVec Nat 2)).len ≤ 2 ∧
    StaticVec.resize ({ len := 0, data := [none, none] } : StaticVec Nat 2) 3 =
      ({ len := 0, data := [none, none] }, .error .CapacityExceeded) := by
  have h := len_le_capacity_invariant (StaticVec.defaultVec : StaticVec Nat 2)
    (Or.inl rfl) [Op.pushOp 5, Op.pushOp 6, Op.pushOp 7]
  exact ⟨h.1, h.2.1 _ 3 (by decide)⟩

/-- C9: polling an empty store reports pending, leaves the store unchanged,
and this repeats indefinitely across rounds (whatever each round's
operations would do): the empty-store race never completes. -/
theorem empty_store_race_never_resolves {T A : Type} {N : Nat}
    (ps : Nat → T → Option A) (v : StaticVec T N) (h : v.len = 0) :
    ∀ k : Nat, runRounds ps v k = v ∧
      selectVecPoll (ps k) (runRounds ps v k) = (v, none) := by
  have hp : ∀ q : T → Option A, selectVecPoll q v = (v, none) := fun q =>
    selectVecPollFrom_pending q v v.len 0 (fun j _ hj => absurd hj (by omega))
  intro k
  induction k with
  | zero => exact ⟨rfl, hp (ps 0)⟩
  | succ k ih =>
    have hr : runRounds ps v (k + 1) = v := by
      rw [runRounds, ih.1, hp (ps k)]
    exact ⟨hr, by rw [hr]; exact hp (ps (k + 1))⟩

/-- C9 witness: five rounds over an empty capacity-1 store (with a per-round
outcome that would complete any polled future) leave it empty; the fifth
round still reports pending. -/
theorem empty_store_race_never_resolves_witness :
    runRounds (fun _ (t : Nat) => some t)
        ({ len := 0, data := [none] } : StaticVec Nat 1) 5 =
      { len := 0, data := [none] } ∧
    selectVecPoll ((fun _ (t : Nat) => some t) 5)
        (runRounds (fun _ (t : Nat) => some t)
          ({ len := 0, data := [none] } : StaticVec Nat 1) 5) =
      ({ len := 0, data := [none] }, none) :=
  empty_store_race_never_resolves (fun _ (t : Nat) => some t)
    ({ len := 0, data := [none] } : StaticVec Nat 1) rfl 5

/-- C10: when `try_extend_from_iter` overflows, the first element that did
not fit has already been consumed from the source and is discarded: the
store receives exactly the `N - len` elements that fit, the caller gets
only `CapacityExceeded`, and the remaining iterator resumes after the
consumed element (`drop (N - len + 1)`). -/
theorem try_extend_from_iter_overflow_discards_item {T : Type} {N : Nat}
    (v : StaticVec T N) (l : List T) (hd : v.data.length = N) (hl : v.len ≤ N)
    (hover : N - v.len < l.length) :
    (v.try_extend_from_iter l).2.2 = .error .CapacityExceeded ∧
    (v.try_extend_from_iter l).1.as_slice =
      v.as_slice ++ (l.take (N - v.len)).map some ∧
    (v.try_extend_from_iter l).2.1 = l.drop (N - v.len + 1) := by
  rw [(try_extend_from_iter_spec l v hl).2 hover]
  refine ⟨rfl, ?_, rfl⟩
  have htk : (l.take (N - v.len)).length = N - v.len := by
    rw [List.length_take]
    omega
  have := take_writeAt_as_append v.data v.len (l.take (N - v.len))
    (by rw [htk]; omega)
  rw [htk] at this
  have hN : v.len + (N - v.len) = N := by omega
  rw [hN] at this
  simpa [StaticVec.as_slice] using this

/-- C10 witness: extending `[9]` (capacity 2) from the source `[4, 5, 6]`
stores `4`, fails, and leaves the iterator at `[6]`: the element `5` was
consumed and discarded. -/
theorem try_extend_from_iter_overflow_discards_item_witness :
    (StaticVec.try_extend_from_iter
        ({ len := 1, data := [some 9, none] } : StaticVec Nat 2) [4, 5, 6]).2.2 =
      .error .CapacityExceeded ∧
    (StaticVec.try_extend_from_iter
        ({ len := 1, data := [some 9, none] } : StaticVec Nat 2) [4, 5, 6]).1.as_slice =
      [some 9, some 4] ∧
    (StaticVec.try_extend_from_iter
        ({ len := 1, data := [some 9, none] } : StaticVec Nat 2) [4, 5, 6]).2.1 =
      [6] := by
  have h := try_extend_from_iter_overflow_discards_item
    ({ len := 1, data := [some 9, none] } : StaticVec Nat 2) [4, 5, 6] rfl
    (by decide) (by decide)
  exact ⟨h.1, h.2.1.trans (by decide), h.2.2.trans (by decide)⟩
